import Mathlib

/-!
Verification development for the xGPR repository: a shallow embedding of
the NMLL gradient engine (`xGPR/scoring_tools/gradient_tools.py`), the
reference convolution feature pipeline
(`test/fht_operations_tests/conv_testing_functions.py`), and the GraphRBF
kernel's input validation and averaging-flag plumbing
(`xGPR/kernels/convolution_kernels/graph_rbf.py`).

Exact arithmetic of the gradient engine is modelled over `ℚ`; the
floating-point feature pipeline (which uses `sqrt`, `cos`, `sin`) is
modelled over `ℝ`.
-/

namespace XGPR

/-! ### NMLL gradient engine (`gradient_tools.exact_nmll_reg_grad`)

Vectors are `Fin n → ℚ`, matrices `Fin n → Fin n → ℚ`; `n` is `num_rffs`.
Arrays indexed by hyperparameter position are unbundled as `ℕ → ℚ`
(entries outside the array's extent are modelled as `0`). -/

/-- Dot product `u^T v` (numpy `u.T @ v`). -/
def dotv {n : ℕ} (u v : Fin n → ℚ) : ℚ := ∑ i, u i * v i

/-- Matrix-vector product (numpy `A @ v`). -/
def matVec {n : ℕ} (A : Fin n → Fin n → ℚ) (v : Fin n → ℚ) : Fin n → ℚ :=
  fun i => ∑ j, A i j * v j

/-- Matrix transpose (numpy `A.T`). -/
def transposeM {n : ℕ} (A : Fin n → Fin n → ℚ) : Fin n → Fin n → ℚ :=
  fun i j => A j i

/-- The in-place diagonal update
`z_trans_z.flat[::z_trans_z.shape[0]+1] += c` (gradient_tools.py line 40):
the strided flat slice touches exactly those flat indices `i*n + j` that are
multiples of `n+1`.  The returned matrix is the post-call state of the
caller's array. -/
def flatStrideAdd {n : ℕ} (A : Fin n → Fin n → ℚ) (c : ℚ) : Fin n → Fin n → ℚ :=
  fun i j => if (n + 1) ∣ i.val * n + j.val then A i j + c else A i j

/-- Modelled from the spec: the Cholesky helper module `cho_solvers`
(`cpu_cho_calcs` / `cpu_cho_solver`, imported by `gradient_tools.py`) is not
among the sources.  Per the spec it factors `G' = L·Lᵗ` and returns
`weights = G'⁻¹ g`, `idTrace = trace(G'⁻¹)`, the inverse Cholesky factor
`L⁻¹` (of which the engine only uses `Σ(L⁻¹)²`, recorded here as
`cholInvSqSum`), and `cho_solver(chol, innerDeriv[:,:,m])` whose trace is
recorded as `traceTerm m = trace(G'⁻¹ · innerDeriv[:,:,m])`.  These solver
outputs are taken as inputs of the engine model. -/
structure CholOutputs (n : ℕ) where
  weights : Fin n → ℚ
  idTrace : ℚ
  cholInvSqSum : ℚ
  traceTerm : ℕ → ℚ

/-- Post-call state and outputs of `exact_nmll_reg_grad`.  The first five
fields are the caller-visible arrays after the call (the function mutates
`z_trans_z` in place and reads all the others); `gradPre` is the gradient
array before the final `grad *= hparams`, `grad` the returned one. -/
structure NMLLGradResult (n : ℕ) where
  z_trans_z : Fin n → Fin n → ℚ
  z_trans_y : Fin n → ℚ
  dz_dsigma_ty : Fin n → ℕ → ℚ
  inner_deriv : ℕ → Fin n → Fin n → ℚ
  hparams : ℕ → ℚ
  weights : Fin n → ℚ
  gradPre : ℕ → ℚ
  grad : ℕ → ℚ

/-- The loop `for i in range(grad.shape[0] - 2): grad[i+2] = ...`
(gradient_tools.py lines 69-75), filling positions `2..M+1` of the gradient
array. -/
def fillKernelGrads (g : ℕ → ℚ) (term : ℕ → ℚ) : ℕ → ℕ → ℚ
  | 0 => g
  | m + 1 => Function.update (fillKernelGrads g term m) (m + 2) (term m)

/-- Shallow embedding of `exact_nmll_reg_grad` (gradient_tools.py lines
11-78) over exact rationals.  `M` is the number of kernel-specific
hyperparameters (`grad.shape[0] - 2`), `hparams j` the hyperparameter array
(`hparams[0] = lambda_`, `hparams[1] = beta_`), and `cho` the outputs of the
(spec-modelled) Cholesky helpers.  Line 40 mutates `z_trans_z` in place, so
every later read of `z_trans_z` (line 62) sees the regularized matrix. -/
def exact_nmll_reg_grad {n : ℕ} (M : ℕ) (z_trans_z : Fin n → Fin n → ℚ)
    (z_trans_y : Fin n → ℚ) (y_trans_y : ℚ) (hparams : ℕ → ℚ)
    (ndatapoints : ℕ) (dz_dsigma_ty : Fin n → ℕ → ℚ)
    (inner_deriv : ℕ → Fin n → Fin n → ℚ) (cho : CholOutputs n) :
    NMLLGradResult n :=
  let ztz := flatStrideAdd z_trans_z (hparams 0 ^ 2)
  let w := cho.weights
  let dnll_dlambda : ℚ :=
    (1 / hparams 0 ^ 3) * (dotv z_trans_y w - y_trans_y)
      + (1 / hparams 0) * dotv w w
      + ((ndatapoints : ℚ) - (n : ℚ)) / hparams 0
      + hparams 0 * cho.cholInvSqSum
  let dnll_dbeta : ℚ :=
    (dotv w (matVec (transposeM ztz) w) - dotv z_trans_y w)
        * (1 / (hparams 0 ^ 2 * hparams 1))
      + cho.idTrace / hparams 1
  let sigmaTerm : ℕ → ℚ := fun i =>
    (2 * dotv w (fun r => dz_dsigma_ty r i)
        - dotv w (matVec (inner_deriv i) w)) * (-(1 / 2) / hparams 0 ^ 2)
      + (1 / 2) * cho.traceTerm i
  let gradArr := fillKernelGrads
    (Function.update (Function.update (fun _ => 0) 0 dnll_dlambda) 1 dnll_dbeta)
    sigmaTerm M
  { z_trans_z := ztz
    z_trans_y := z_trans_y
    dz_dsigma_ty := dz_dsigma_ty
    inner_deriv := inner_deriv
    hparams := hparams
    weights := w
    gradPre := fun j => if j < M + 2 then gradArr j else 0
    grad := fun j => if j < M + 2 then gradArr j * hparams j else 0 }

/-! ### Reference convolution feature pipeline
(`test/fht_operations_tests/conv_testing_functions.py`)

The raw input `xdata` of shape `[N, L, D]` is unbundled as
`ℕ → ℕ → ℕ → ℝ` (sample, sequence position, feature); the sign diagonals
`radem` of shape `[3, 1, R]` as `ℕ → ℕ → ℝ`.  `dim2` is `2 ^ p`.  Arrays
are modelled as functions, with entries outside the written extent equal
to `0`. -/

noncomputable section ConvFeatures

/-- Modelled from the spec: `cpuFastHadamardTransform` (the repository's C
extension `cpu_rf_gen_module`, not among the sources).  The unnormalized
Hadamard transform on the last axis of a power-of-two-width block,
recursively computed: `H_{2^(p+1)} = [[H, H], [H, -H]]`. -/
def hadamard : ℕ → (ℕ → ℝ) → (ℕ → ℝ)
  | 0, v => v
  | p + 1, v => fun j =>
      if j < 2 ^ p then hadamard p (fun t => v t + v (t + 2 ^ p)) j
      else hadamard p (fun t => v t - v (t + 2 ^ p)) (j - 2 ^ p)

/-- `norm_constant = 1 / 2 ** (log2(dim2) / 2)` (conv_testing_functions.py
lines 52-53); with `dim2 = 2 ^ p` this is `1 / sqrt (2 ^ p)`. -/
def normConst (p : ℕ) : ℝ := 1 / Real.sqrt ((2 : ℝ) ^ p)

/-- One row of the windowed, zero-padded block (conv_testing_functions.py
lines 64-67): row `b` of sample `k` holds the flattened window
`xdata[k, b:b+kw, :]` in its first `D * kw` entries and zeros beyond. -/
def windowFlat (x : ℕ → ℕ → ℕ → ℝ) (D kw : ℕ) (k b : ℕ) : ℕ → ℝ :=
  fun j => if j < D * kw then x k (b + j / D) (j % D) else 0

/-- The three diagonal-multiply + Hadamard stages (conv_testing_functions.py
lines 69-74) applied to one block row; `start = repeat_num * dim2` selects
the diagonal slices. -/
def threeStage (p : ℕ) (radem : ℕ → ℕ → ℝ) (start : ℕ) (v : ℕ → ℝ) : ℕ → ℝ :=
  let s1 := hadamard p (fun j => v j * (radem 0 (start + j) * normConst p))
  let s2 := hadamard p (fun j => s1 j * (radem 1 (start + j) * normConst p))
  hadamard p (fun j => s2 j * (radem 2 (start + j) * normConst p))

/-- The simplex projection (conv_testing_functions.py lines 81-94) on one
block row of width `c`: the running sum `S` of the first `c - 1` columns is
divided by `sqrt (c - 1)` and written to the last column; the remaining
columns are rescaled by `sqrt (c / (c - 1))` and the (already divided) sum,
further scaled by `(1 + sqrt c) / (c - 1)`, is subtracted from each. -/
def simplexProject (c : ℕ) (v : ℕ → ℝ) : ℕ → ℝ := fun j =>
  if j = c - 1 then
    (∑ i ∈ Finset.range (c - 1), v i) / Real.sqrt ((c : ℝ) - 1)
  else
    v j * Real.sqrt ((c : ℝ) / ((c : ℝ) - 1))
      - ((∑ i ∈ Finset.range (c - 1), v i) / Real.sqrt ((c : ℝ) - 1))
        * ((1 + Real.sqrt (c : ℝ)) / ((c : ℝ) - 1))

/-- `get_reshaped_x` (conv_testing_functions.py lines 45-96): entry
`[k, b, j]` of the reshaped, transformed and simplex-projected block for
repeat `rep`, with `dim2 = 2 ^ p`. -/
def get_reshaped_x (p : ℕ) (x : ℕ → ℕ → ℕ → ℝ) (D kw : ℕ)
    (radem : ℕ → ℕ → ℝ) (rep : ℕ) (k b j : ℕ) : ℝ :=
  simplexProject (2 ^ p) (threeStage p radem (rep * 2 ^ p) (windowFlat x D kw k b)) j

/-- The normalization selector of `get_features`. -/
inductive NormMode
  | nrmNone
  | nrmSqrt
  | nrmFull

/-- `scaling_factor` (conv_testing_functions.py lines 123-127) as a function
of the per-sample `cutpoint`. -/
def normScale : NormMode → ℕ → ℝ
  | NormMode.nrmNone, _ => 1
  | NormMode.nrmSqrt, cut => 1 / Real.sqrt (cut : ℝ)
  | NormMode.nrmFull, cut => 1 / (cut : ℝ)

/-- `get_features` (conv_testing_functions.py lines 99-133): entry
`[k, col]` of the sine-cosine feature matrix of shape `[N, 2 * num_freqs]`.
Column `2*t` holds the cosine sum and `2*t + 1` the sine sum for frequency
`t`, which lives in repeat `t / dim2`, transform column `t % dim2`; the sum
runs over the sample's first `cutpoint = seqLen k - kw + 1` window
positions, is scaled by the normalization option and finally by
`sqrt (1 / num_freqs)`.  Columns at or beyond `2 * num_freqs` do not exist
and are modelled as `0`. -/
def get_features (x : ℕ → ℕ → ℕ → ℝ) (kw D p : ℕ) (radem : ℕ → ℕ → ℝ)
    (s_mat : ℕ → ℝ) (num_freqs : ℕ) (sigma : ℝ) (seqLen : ℕ → ℕ)
    (norm : NormMode) (k col : ℕ) : ℝ :=
  if col < 2 * num_freqs then
    (if col % 2 = 0 then
        ∑ b ∈ Finset.range (seqLen k - kw + 1),
          Real.cos (get_reshaped_x p x D kw radem (col / 2 / 2 ^ p) k b (col / 2 % 2 ^ p)
            * s_mat (col / 2) * sigma)
      else
        ∑ b ∈ Finset.range (seqLen k - kw + 1),
          Real.sin (get_reshaped_x p x D kw radem (col / 2 / 2 ^ p) k b (col / 2 % 2 ^ p)
            * s_mat (col / 2) * sigma))
      * normScale norm (seqLen k - kw + 1) * Real.sqrt (1 / (num_freqs : ℝ))
  else 0

/-- `reshaped_x[k, :cutpoint, :].max(axis=1).clip(min=0)` for one column:
the running maximum over window positions `0..n-1`, folded together with
the clip floor `0`.  For `n ≥ 1` this equals
`max 0 (max over the n positions)`. -/
def clippedMax : ℕ → (ℕ → ℝ) → ℝ
  | 0, _ => 0
  | n + 1, f => max (clippedMax n f) (f n)

/-- `get_features_maxpool` (conv_testing_functions.py lines 173-190): entry
`[k, col]` of the returned matrix `features[:, :num_rffs]`.  Each kept
column `col < num_rffs` holds the clipped maximum, over the sample's first
`cutpoint` window positions, of `s_mat[col]` times the transformed block
column `col % dim2` of repeat `col / dim2`; columns at or beyond `num_rffs`
are truncated away (modelled as `0`). -/
def get_features_maxpool (x : ℕ → ℕ → ℕ → ℝ) (kw D p : ℕ)
    (radem : ℕ → ℕ → ℝ) (s_mat : ℕ → ℝ) (num_rffs : ℕ) (seqLen : ℕ → ℕ)
    (k col : ℕ) : ℝ :=
  if col < num_rffs then
    clippedMax (seqLen k - kw + 1)
      (fun b => s_mat col * get_reshaped_x p x D kw radem (col / 2 ^ p) k b (col % 2 ^ p))
  else 0

end ConvFeatures

/-! ### GraphRBF kernel: validation and the averaging flag
(`xGPR/kernels/convolution_kernels/graph_rbf.py`)

The numeric feature generation is performed by the C extension functions
`cpuConv1dFGen` / `cpuConvGrad` (not among the sources); they are
abstracted as function arguments receiving the `graph_average` flag.  The
model records, as an explicit step trace, which buffers a call allocates
and which transform it invokes, so that "raised before any numeric work"
is expressible. -/

/-- A Python value stored in `kernel_spec_parms`, with its truthiness. -/
inductive PyVal
  | pyBool (b : Bool)
  | pyInt (n : ℤ)
  | pyNone

/-- Python truthiness of a `PyVal` (`if kernel_spec_parms["averaging"]:`). -/
def truthy : PyVal → Bool
  | PyVal.pyBool b => b
  | PyVal.pyInt n => decide (n ≠ 0)
  | PyVal.pyNone => false

/-- `GraphRBF.__init__` lines 74-77: `graph_average` starts `False` and is
set to `True` exactly when `kernel_spec_parms` holds a truthy value under
the key `"averaging"`. -/
def graph_average_init (kernel_spec_parms : String → Option PyVal) : Bool :=
  match kernel_spec_parms "averaging" with
  | some v => if truthy v then true else false
  | none => false

/-- The error raised by GraphRBF input validation (a Python `ValueError`;
the spec's ValidationError). -/
inductive KernelError
  | validationError

/-- One observable step of a feature-generation call: allocating the output
buffer (`self.zero_arr(...)`), allocating the reshaped input buffer, or
invoking the conv / gradient C function with the `graph_average` flag it
was handed. -/
inductive FeatureStep
  | allocOutput
  | allocReshaped
  | convCall (graph_average : Bool)
  | gradCall (graph_average : Bool)

/-- Outcome of a GraphRBF call: the ordered trace of performed steps and
either the produced value or the raised error. -/
structure CallResult (α : Type) where
  steps : List FeatureStep
  outcome : Except KernelError α

/-- `GraphRBF.transform_x` (graph_rbf.py lines 129-155): validation of the
sequence lengths and of the input rank precedes every allocation and the
conv-function invocation.  `conv_func` abstracts the C extension
`cpuConv1dFGen` applied to the prepared buffers; it receives the instance's
`graph_average` flag. -/
def transform_x {α : Type} (sequence_length : Option (List ℕ))
    (input_shape : List ℕ) (graph_average : Bool) (conv_func : Bool → α) :
    CallResult α :=
  if sequence_length.isNone then
    ⟨[], Except.error KernelError.validationError⟩
  else if input_shape.length ≠ 3 then
    ⟨[], Except.error KernelError.validationError⟩
  else
    ⟨[FeatureStep.allocOutput, FeatureStep.allocReshaped,
        FeatureStep.convCall graph_average],
      Except.ok (conv_func graph_average)⟩

/-- `GraphRBF.kernel_specific_gradient` (graph_rbf.py lines 159-187): same
validation as `transform_x`, then the gradient C function `cpuConvGrad`
(abstracted as `grad_func`) is invoked with the `graph_average` flag. -/
def kernel_specific_gradient {α : Type} (sequence_length : Option (List ℕ))
    (input_shape : List ℕ) (graph_average : Bool) (grad_func : Bool → α) :
    CallResult α :=
  if sequence_length.isNone then
    ⟨[], Except.error KernelError.validationError⟩
  else if input_shape.length ≠ 3 then
    ⟨[], Except.error KernelError.validationError⟩
  else
    ⟨[FeatureStep.allocOutput, FeatureStep.allocReshaped,
        FeatureStep.gradCall graph_average],
      Except.ok (grad_func graph_average)⟩

/-! ### Concrete instances for the C1 counterexample

A `1 × 1` instance with `G = [[1]]`, `g = [2]`, `lambda_ = beta_ = 1`:
the regularized matrix is `G' = [[2]]`, the honest solver outputs are
`weights = [1]` (indeed `G' w = g`), `idTrace = trace(G'⁻¹) = 1/2` and
`Σ(L⁻¹)² = 1/2`. -/

/-- The caller-supplied `z_trans_z` of the C1 counterexample. -/
def cexG : Fin 1 → Fin 1 → ℚ := fun _ _ => 1

/-- The caller-supplied `z_trans_y` of the C1 counterexample. -/
def cexg : Fin 1 → ℚ := fun _ => 2

/-- The hyperparameter array of the C1 counterexample: `lambda_ = beta_ = 1`. -/
def cexH : ℕ → ℚ := fun _ => 1

/-- The honest Cholesky-solver outputs of the C1 counterexample. -/
def cexCho : CholOutputs 1 :=
  { weights := fun _ => 1, idTrace := 1 / 2, cholInvSqSum := 1 / 2, traceTerm := fun _ => 0 }

/-- The engine run of the C1 counterexample (`M = 0`, `y_trans_y = 0`,
`ndatapoints = 5`). -/
def cexRun : NMLLGradResult 1 :=
  exact_nmll_reg_grad 0 cexG cexg 0 cexH 5 (fun _ _ => 0) (fun _ _ _ => 0) cexCho

/-! ### Helper lemmas for the gradient engine -/

/-- The flat stride `::n+1` hits flat index `i*n + j` exactly on the
diagonal: for `i, j < n`, `n+1` divides `i*n + j` iff `i = j`. -/
theorem stride_dvd_iff {n : ℕ} (i j : Fin n) :
    (n + 1) ∣ i.val * n + j.val ↔ i = j := by
  constructor
  · rintro ⟨m, hm⟩
    have hi := i.isLt
    have hj := j.isLt
    have hn : 0 < n := lt_of_le_of_lt (Nat.zero_le _) i.isLt
    have hmn : m < n := by
      rcases Nat.lt_or_ge m n with h | h
      · exact h
      · exfalso
        have hle : (n + 1) * n ≤ (n + 1) * m := Nat.mul_le_mul_left _ h
        nlinarith [hm, hi, hj]
    have hjm : j.val = m := by
      have h1 : (i.val * n + j.val) % n = j.val % n := by
        rw [Nat.mul_comm]
        exact Nat.mul_add_mod _ _ _
      have h2 : ((n + 1) * m) % n = m % n := by
        have hx : (n + 1) * m = n * m + m := by ring
        rw [hx, Nat.mul_add_mod]
      rw [hm, h2, Nat.mod_eq_of_lt hmn, Nat.mod_eq_of_lt hj] at h1
      exact h1.symm
    have him : i.val = m := by
      have hx : i.val * n + m = m * n + m := by
        rw [← hjm]
        rw [hm, ← hjm]
        ring
      have hy : i.val * n = m * n := by omega
      exact Nat.eq_of_mul_eq_mul_right hn hy
    exact Fin.ext (by rw [hjm, him])
  · rintro rfl
    exact ⟨i.val, by ring⟩

/-- Pointwise description of the in-place diagonal update: it adds `c` to
every diagonal entry and leaves off-diagonal entries unchanged. -/
theorem flatStrideAdd_apply {n : ℕ} (A : Fin n → Fin n → ℚ) (c : ℚ) (i j : Fin n) :
    flatStrideAdd A c i j = if i = j then A i j + c else A i j := by
  unfold flatStrideAdd
  rcases eq_or_ne i j with h | h
  · subst h
    rw [if_pos ((stride_dvd_iff i i).mpr rfl), if_pos rfl]
  · rw [if_neg (fun hd => h ((stride_dvd_iff i j).mp hd)), if_neg h]

/-- Positions `0` and `1` of the gradient array are untouched by the
kernel-specific loop. -/
theorem fillKernelGrads_lt_two (g term : ℕ → ℚ) (M j : ℕ) (hj : j < 2) :
    fillKernelGrads g term M j = g j := by
  induction M with
  | zero => rfl
  | succ m ih =>
    show Function.update (fillKernelGrads g term m) (m + 2) (term m) j = g j
    rw [Function.update_noteq (by omega)]
    exact ih

/-- Position `m + 2` of the gradient array holds the `m`-th kernel-specific
term once the loop has reached past `m`. -/
theorem fillKernelGrads_at (g term : ℕ → ℚ) (M m : ℕ) (hm : m < M) :
    fillKernelGrads g term M (m + 2) = term m := by
  induction M with
  | zero => omega
  | succ M' ih =>
    show Function.update (fillKernelGrads g term M') (M' + 2) (term M') (m + 2) = term m
    rcases eq_or_ne m M' with h | h
    · subst h
      rw [Function.update_same]
    · rw [Function.update_noteq (by omega)]
      exact ih (by omega)

/-- `w^T (A^T w) = w^T (A w)` for any square matrix. -/
theorem dotv_matVec_transpose {n : ℕ} (A : Fin n → Fin n → ℚ) (w : Fin n → ℚ) :
    dotv w (matVec (transposeM A) w) = dotv w (matVec A w) := by
  unfold dotv matVec transposeM
  simp only [Finset.mul_sum]
  rw [Finset.sum_comm]
  exact Finset.sum_congr rfl fun i _ => Finset.sum_congr rfl fun j _ => by ring

/-! ### Claims C1, C2, C3, C9 -/

/-- **C2**: the lambda-component of the gradient, before the final
elementwise multiplication by `hparams`, equals
`(1/λ³)(gᵀw − yᵀy) + (1/λ)(wᵀw) + (ndatapoints − num_rffs)/λ + λ·Σ(L⁻¹)²`,
where `w = G'⁻¹g` and `Σ(L⁻¹)²` are the (spec-modelled) Cholesky-solver
outputs and `num_rffs = n` is `z_trans_z.shape[1]`. -/
theorem C2_lambda_gradient {n : ℕ} (M : ℕ) (z_trans_z : Fin n → Fin n → ℚ)
    (z_trans_y : Fin n → ℚ) (y_trans_y : ℚ) (hparams : ℕ → ℚ) (ndatapoints : ℕ)
    (dz_dsigma_ty : Fin n → ℕ → ℚ) (inner_deriv : ℕ → Fin n → Fin n → ℚ)
    (cho : CholOutputs n) :
    (exact_nmll_reg_grad M z_trans_z z_trans_y y_trans_y hparams ndatapoints
        dz_dsigma_ty inner_deriv cho).gradPre 0
      = (1 / hparams 0 ^ 3) * (dotv z_trans_y cho.weights - y_trans_y)
        + (1 / hparams 0) * dotv cho.weights cho.weights
        + ((ndatapoints : ℚ) - (n : ℚ)) / hparams 0
        + hparams 0 * cho.cholInvSqSum := by
  dsimp only [exact_nmll_reg_grad]
  rw [if_pos (by omega : (0 : ℕ) < M + 2),
    fillKernelGrads_lt_two _ _ _ _ (by omega),
    Function.update_noteq (by omega), Function.update_same]

/-- **C1 (amended)**: the beta-component of the gradient, before the final
elementwise multiplication by `hparams`, equals
`[(wᵀG'w) − (gᵀw)] / (λ²β) + idTrace/β` where `G' = G + λ²I` is the
*regularized* matrix — the code updates `z_trans_z` in place at line 40, so
the quadratic form at line 62 is taken in the regularized matrix, not the
unregularized statistics the caller passed in. -/
theorem C1_beta_gradient_regularized {n : ℕ} (M : ℕ) (z_trans_z : Fin n → Fin n → ℚ)
    (z_trans_y : Fin n → ℚ) (y_trans_y : ℚ) (hparams : ℕ → ℚ) (ndatapoints : ℕ)
    (dz_dsigma_ty : Fin n → ℕ → ℚ) (inner_deriv : ℕ → Fin n → Fin n → ℚ)
    (cho : CholOutputs n) :
    (exact_nmll_reg_grad M z_trans_z z_trans_y y_trans_y hparams ndatapoints
        dz_dsigma_ty inner_deriv cho).gradPre 1
      = (dotv cho.weights
            (matVec (flatStrideAdd z_trans_z (hparams 0 ^ 2)) cho.weights)
          - dotv z_trans_y cho.weights) / (hparams 0 ^ 2 * hparams 1)
        + cho.idTrace / hparams 1 := by
  dsimp only [exact_nmll_reg_grad]
  rw [if_pos (by omega : (1 : ℕ) < M + 2),
    fillKernelGrads_lt_two _ _ _ _ (by omega),
    Function.update_same, dotv_matVec_transpose]
  ring

/-- **C1 (counterexample)**: at the concrete `1 × 1` instance
`G = [[1]]`, `g = [2]`, `λ = β = 1` — where the solver outputs are honest:
`G' w = g`, `idTrace · G'₀₀ = 1` (so `idTrace = trace(G'⁻¹)`), and
`Σ(L⁻¹)² = idTrace` — the beta-component of the gradient before the final
multiply is `1/2`, while the claim's formula with the *unregularized* `G`
gives `-1/2`. -/
theorem C1_counterexample :
    matVec (flatStrideAdd cexG (cexH 0 ^ 2)) cexCho.weights = cexg
    ∧ cexCho.idTrace * flatStrideAdd cexG (cexH 0 ^ 2) 0 0 = 1
    ∧ cexCho.cholInvSqSum = cexCho.idTrace
    ∧ cexRun.gradPre 1
        ≠ (dotv cexCho.weights (matVec cexG cexCho.weights)
              - dotv cexg cexCho.weights) / (cexH 0 ^ 2 * cexH 1)
          + cexCho.idTrace / cexH 1 := by
  refine ⟨?_, ?_, ?_, ?_⟩
  · funext i
    simp [matVec, flatStrideAdd, cexG, cexg, cexH, cexCho, Fin.sum_univ_one,
      Fin.val_eq_zero]
    norm_num
  · simp [flatStrideAdd, cexG, cexH, cexCho, Fin.val_eq_zero]
    norm_num
  · rfl
  · have hL : cexRun.gradPre 1 = 1 / 2 := by
      dsimp only [cexRun, exact_nmll_reg_grad]
      rw [if_pos (by omega : (1 : ℕ) < 0 + 2),
        fillKernelGrads_lt_two _ _ _ _ (by omega), Function.update_same]
      simp [dotv, matVec, transposeM, flatStrideAdd, cexG, cexg, cexH, cexCho,
        Fin.sum_univ_one, Fin.val_eq_zero]
      norm_num
    have hR : (dotv cexCho.weights (matVec cexG cexCho.weights)
          - dotv cexg cexCho.weights) / (cexH 0 ^ 2 * cexH 1)
          + cexCho.idTrace / cexH 1 = -(1 / 2) := by
      simp [dotv, matVec, cexG, cexg, cexH, cexCho, Fin.sum_univ_one]
      norm_num
    rw [hL, hR]
    norm_num

/-- **C3**: the returned gradient entry at position `m + 2` equals
`σₘ · (−0.5/λ² · [2wᵀ(∂Z/∂σₘ)ᵀy − wᵀ·innerDeriv[:,:,m]·w] + 0.5·traceTerm)`,
the factor `σₘ = hparams (m+2)` coming from the final elementwise
multiplication of the gradient vector by `hparams`; `traceTerm m` is the
(spec-modelled) `trace(G'⁻¹ · innerDeriv[:,:,m])`. -/
theorem C3_sigma_gradient {n : ℕ} (M : ℕ) (z_trans_z : Fin n → Fin n → ℚ)
    (z_trans_y : Fin n → ℚ) (y_trans_y : ℚ) (hparams : ℕ → ℚ) (ndatapoints : ℕ)
    (dz_dsigma_ty : Fin n → ℕ → ℚ) (inner_deriv : ℕ → Fin n → Fin n → ℚ)
    (cho : CholOutputs n) (m : ℕ) (hm : m < M) :
    (exact_nmll_reg_grad M z_trans_z z_trans_y y_trans_y hparams ndatapoints
        dz_dsigma_ty inner_deriv cho).grad (m + 2)
      = hparams (m + 2)
        * ((-(1 / 2) / hparams 0 ^ 2)
            * (2 * dotv cho.weights (fun r => dz_dsigma_ty r m)
              - dotv cho.weights (matVec (inner_deriv m) cho.weights))
          + (1 / 2) * cho.traceTerm m) := by
  dsimp only [exact_nmll_reg_grad]
  rw [if_pos (by omega : m + 2 < M + 2), fillKernelGrads_at _ _ _ _ hm]
  ring

/-- Witness for C3 at a concrete `n = 1`, `M = 1` instance. -/
theorem C3_witness :
    0 < 1
    ∧ (exact_nmll_reg_grad (n := 1) 1 (fun _ _ => 0) (fun _ => 0) 0 (fun _ => 1) 0
          (fun _ _ => 3) (fun _ _ _ => 0) ⟨fun _ => 2, 0, 0, fun _ => 4⟩).grad (0 + 2)
        = 1 * ((-(1 / 2) / (1 : ℚ) ^ 2)
              * (2 * dotv (fun _ : Fin 1 => (2 : ℚ)) (fun _ : Fin 1 => (3 : ℚ))
                - dotv (fun _ : Fin 1 => (2 : ℚ))
                    (matVec (fun _ _ : Fin 1 => (0 : ℚ)) (fun _ : Fin 1 => (2 : ℚ))))
            + (1 / 2) * 4) :=
  ⟨by norm_num,
    C3_sigma_gradient 1 (fun _ _ => 0) (fun _ => 0) 0 (fun _ => 1) 0
      (fun _ _ => 3) (fun _ _ _ => 0) ⟨fun _ => 2, 0, 0, fun _ => 4⟩ 0 (by norm_num)⟩

/-- **C9**: the engine mutates the caller's `z_trans_z` in place — after the
call it holds `G + λ²I` (λ² added to every diagonal element, off-diagonal
entries untouched) — while the caller-supplied `z_trans_y`, `dz_dsigma_ty`,
`inner_deriv` and `hparams` are returned exactly as passed. -/
theorem C9_frame_effect {n : ℕ} (M : ℕ) (z_trans_z : Fin n → Fin n → ℚ)
    (z_trans_y : Fin n → ℚ) (y_trans_y : ℚ) (hparams : ℕ → ℚ) (ndatapoints : ℕ)
    (dz_dsigma_ty : Fin n → ℕ → ℚ) (inner_deriv : ℕ → Fin n → Fin n → ℚ)
    (cho : CholOutputs n) :
    (∀ i j : Fin n,
      (exact_nmll_reg_grad M z_trans_z z_trans_y y_trans_y hparams ndatapoints
          dz_dsigma_ty inner_deriv cho).z_trans_z i j
        = if i = j then z_trans_z i j + hparams 0 ^ 2 else z_trans_z i j)
    ∧ (exact_nmll_reg_grad M z_trans_z z_trans_y y_trans_y hparams ndatapoints
        dz_dsigma_ty inner_deriv cho).z_trans_y = z_trans_y
    ∧ (exact_nmll_reg_grad M z_trans_z z_trans_y y_trans_y hparams ndatapoints
        dz_dsigma_ty inner_deriv cho).dz_dsigma_ty = dz_dsigma_ty
    ∧ (exact_nmll_reg_grad M z_trans_z z_trans_y y_trans_y hparams ndatapoints
        dz_dsigma_ty inner_deriv cho).inner_deriv = inner_deriv
    ∧ (exact_nmll_reg_grad M z_trans_z z_trans_y y_trans_y hparams ndatapoints
        dz_dsigma_ty inner_deriv cho).hparams = hparams :=
  ⟨fun i j => flatStrideAdd_apply z_trans_z (hparams 0 ^ 2) i j, rfl, rfl, rfl, rfl⟩

/-! ### Helper lemmas for the feature pipeline -/

/-- If two inputs agree on all sequence positions below `seqL` of sample
`k`, the flattened windows of that sample agree for every window index
below the cutpoint `seqL - kw + 1`. -/
theorem windowFlat_agree (x x' : ℕ → ℕ → ℕ → ℝ) (D kw k seqL : ℕ)
    (hD : 0 < D) (hkw : kw ≤ seqL)
    (hagree : ∀ pos d : ℕ, pos < seqL → x k pos d = x' k pos d)
    (b : ℕ) (hb : b < seqL - kw + 1) :
    windowFlat x D kw k b = windowFlat x' D kw k b := by
  funext j
  unfold windowFlat
  by_cases hjw : j < D * kw
  · rw [if_pos hjw, if_pos hjw]
    apply hagree
    have hjw' : j < kw * D := by
      rw [Nat.mul_comm]
      exact hjw
    have hjd : j / D < kw := (Nat.div_lt_iff_lt_mul hD).mpr hjw'
    omega
  · rw [if_neg hjw, if_neg hjw]

/-- The corresponding entries of the reshaped, transformed blocks agree. -/
theorem get_reshaped_x_agree (p : ℕ) (x x' : ℕ → ℕ → ℕ → ℝ) (D kw : ℕ)
    (radem : ℕ → ℕ → ℝ) (rep k seqL : ℕ) (hD : 0 < D) (hkw : kw ≤ seqL)
    (hagree : ∀ pos d : ℕ, pos < seqL → x k pos d = x' k pos d)
    (b : ℕ) (hb : b < seqL - kw + 1) (j : ℕ) :
    get_reshaped_x p x D kw radem rep k b j
      = get_reshaped_x p x' D kw radem rep k b j := by
  unfold get_reshaped_x
  rw [windowFlat_agree x x' D kw k seqL hD hkw hagree b hb]

/-- The clipped running maximum is nonnegative. -/
theorem clippedMax_nonneg (n : ℕ) (f : ℕ → ℝ) : 0 ≤ clippedMax n f := by
  induction n with
  | zero => exact le_refl 0
  | succ m ih => exact le_trans ih (le_max_left _ _)

/-- The clipped running maximum only reads the first `n` values. -/
theorem clippedMax_congr (n : ℕ) (f g : ℕ → ℝ) (h : ∀ b < n, f b = g b) :
    clippedMax n f = clippedMax n g := by
  induction n with
  | zero => rfl
  | succ m ih =>
    show max (clippedMax m f) (f m) = max (clippedMax m g) (g m)
    rw [ih fun b hb => h b (by omega), h m (by omega)]

/-- For a nonempty range the clipped running maximum is the clip floor `0`
joined with the true maximum over the range. -/
theorem clippedMax_eq_sup (n : ℕ) (f : ℕ → ℝ) :
    clippedMax (n + 1) f
      = max 0 ((Finset.range (n + 1)).sup' Finset.nonempty_range_succ f) := by
  induction n with
  | zero =>
    show max (clippedMax 0 f) (f 0)
        = max 0 ((Finset.range 1).sup' Finset.nonempty_range_succ f)
    have h1 : (Finset.range 1).sup' Finset.nonempty_range_succ f = f 0 := by
      have h2 : (Finset.range 1).sup' Finset.nonempty_range_succ f
          = ({0} : Finset ℕ).sup' (Finset.range_one ▸ Finset.nonempty_range_succ) f :=
        Finset.sup'_congr _ Finset.range_one fun _ _ => rfl
      rw [h2, Finset.sup'_singleton]
    rw [h1]
    rfl
  | succ m ih =>
    show max (clippedMax (m + 1) f) (f (m + 1)) = _
    have h1 : (Finset.range (m + 1 + 1)).sup' Finset.nonempty_range_succ f
        = (insert (m + 1) (Finset.range (m + 1))).sup'
            (Finset.range_succ ▸ Finset.nonempty_range_succ) f :=
      Finset.sup'_congr _ Finset.range_succ fun _ _ => rfl
    rw [ih, h1, Finset.sup'_insert, max_assoc,
      max_comm _ (f (m + 1)), ← max_assoc]

/-! ### Claims C4, C5, C6, C7 -/

/-- **C4 (amended)**: for every padded block, after the three-stage
transform the simplex projection sets, with `c = dim2 = 2^p` and `S` the
running sum of the first `c-1` columns, the last column to `S/√(c-1)` and
replaces each earlier column by its value rescaled by `√(c/(c-1))` minus
`(S/√(c-1))·(1+√c)/(c-1)` — the subtracted correction uses the sum
*already divided by* `√(c-1)` (the code divides `sum_arr` in place before
applying the `(1+√c)/(c-1)` factor), not the raw sum `S` itself. -/
theorem C4_simplex_projection (p : ℕ) (x : ℕ → ℕ → ℕ → ℝ) (D kw : ℕ)
    (radem : ℕ → ℕ → ℝ) (rep k b j : ℕ) (hj : j < 2 ^ p - 1) :
    get_reshaped_x p x D kw radem rep k b j
      = threeStage p radem (rep * 2 ^ p) (windowFlat x D kw k b) j
          * Real.sqrt (((2 ^ p : ℕ) : ℝ) / (((2 ^ p : ℕ) : ℝ) - 1))
        - ((∑ i ∈ Finset.range (2 ^ p - 1),
              threeStage p radem (rep * 2 ^ p) (windowFlat x D kw k b) i)
            / Real.sqrt (((2 ^ p : ℕ) : ℝ) - 1))
          * ((1 + Real.sqrt ((2 ^ p : ℕ) : ℝ)) / (((2 ^ p : ℕ) : ℝ) - 1))
    ∧ get_reshaped_x p x D kw radem rep k b (2 ^ p - 1)
      = (∑ i ∈ Finset.range (2 ^ p - 1),
            threeStage p radem (rep * 2 ^ p) (windowFlat x D kw k b) i)
          / Real.sqrt (((2 ^ p : ℕ) : ℝ) - 1) := by
  constructor
  · unfold get_reshaped_x simplexProject
    rw [if_neg (by omega : ¬ j = 2 ^ p - 1)]
  · unfold get_reshaped_x simplexProject
    rw [if_pos rfl]

/-- Witness for C4 (amended) at `p = 2`, column `0`. -/
theorem C4_witness :
    (0 : ℕ) < 2 ^ 2 - 1
    ∧ get_reshaped_x 2 (fun _ _ _ => (1 : ℝ)) 4 1 (fun _ _ => 1) 0 0 0 0
      = threeStage 2 (fun _ _ => 1) (0 * 2 ^ 2) (windowFlat (fun _ _ _ => (1 : ℝ)) 4 1 0 0) 0
          * Real.sqrt (((2 ^ 2 : ℕ) : ℝ) / (((2 ^ 2 : ℕ) : ℝ) - 1))
        - ((∑ i ∈ Finset.range (2 ^ 2 - 1),
              threeStage 2 (fun _ _ => 1) (0 * 2 ^ 2) (windowFlat (fun _ _ _ => (1 : ℝ)) 4 1 0 0) i)
            / Real.sqrt (((2 ^ 2 : ℕ) : ℝ) - 1))
          * ((1 + Real.sqrt ((2 ^ 2 : ℕ) : ℝ)) / (((2 ^ 2 : ℕ) : ℝ) - 1)) :=
  ⟨by norm_num,
    (C4_simplex_projection 2 (fun _ _ _ => 1) 4 1 (fun _ _ => 1) 0 0 0 0 (by norm_num)).1⟩

/-- **C4 (counterexample)**: at `p = 2` (`c = dim2 = 4`), constant input
`1`, all-ones sign diagonals, `D = 4`, `kw = 1`, the transformed block row
is `(2, 0, 0, 0)` with running sum `S = 2`; the code's column `0` is
`2·√(4/3) − (2/√3)·(1+√4)/3`, while the claim's formula
`t₀·√(c/(c-1)) − S·(1+√c)/(c-1)` gives `2·√(4/3) − 2·(1+√4)/3`.  They
differ (by the missing `1/√3` factor), so the claim as stated is false. -/
theorem C4_counterexample :
    get_reshaped_x 2 (fun _ _ _ => (1 : ℝ)) 4 1 (fun _ _ => 1) 0 0 0 0
      ≠ threeStage 2 (fun _ _ => 1) (0 * 2 ^ 2) (windowFlat (fun _ _ _ => (1 : ℝ)) 4 1 0 0) 0
          * Real.sqrt (((2 ^ 2 : ℕ) : ℝ) / (((2 ^ 2 : ℕ) : ℝ) - 1))
        - (∑ i ∈ Finset.range (2 ^ 2 - 1),
              threeStage 2 (fun _ _ => 1) (0 * 2 ^ 2) (windowFlat (fun _ _ _ => (1 : ℝ)) 4 1 0 0) i)
          * ((1 + Real.sqrt ((2 ^ 2 : ℕ) : ℝ)) / (((2 ^ 2 : ℕ) : ℝ) - 1)) := by
  have h20 : ∀ v : ℕ → ℝ, hadamard 2 v 0 = v 0 + v 2 + (v 1 + v 3) := fun _ => rfl
  have h21 : ∀ v : ℕ → ℝ, hadamard 2 v 1 = v 0 + v 2 - (v 1 + v 3) := fun _ => rfl
  have h22 : ∀ v : ℕ → ℝ, hadamard 2 v 2 = v 0 - v 2 + (v 1 - v 3) := fun _ => rfl
  have h23 : ∀ v : ℕ → ℝ, hadamard 2 v 3 = v 0 - v 2 - (v 1 - v 3) := fun _ => rfl
  have hnc : normConst 2 = 1 / 2 := by
    unfold normConst
    rw [Real.sqrt_sq (by norm_num : (0 : ℝ) ≤ 2)]
  have ht0 : threeStage 2 (fun _ _ => (1 : ℝ)) (0 * 2 ^ 2)
      (windowFlat (fun _ _ _ => (1 : ℝ)) 4 1 0 0) 0 = 2 := by
    simp only [threeStage, h20, h21, h22, h23, windowFlat, hnc]
    norm_num
  have ht1 : threeStage 2 (fun _ _ => (1 : ℝ)) (0 * 2 ^ 2)
      (windowFlat (fun _ _ _ => (1 : ℝ)) 4 1 0 0) 1 = 0 := by
    simp only [threeStage, h20, h21, h22, h23, windowFlat, hnc]
    norm_num
  have ht2 : threeStage 2 (fun _ _ => (1 : ℝ)) (0 * 2 ^ 2)
      (windowFlat (fun _ _ _ => (1 : ℝ)) 4 1 0 0) 2 = 0 := by
    simp only [threeStage, h20, h21, h22, h23, windowFlat, hnc]
    norm_num
  have hsum : ∑ i ∈ Finset.range (2 ^ 2 - 1),
      threeStage 2 (fun _ _ => (1 : ℝ)) (0 * 2 ^ 2)
        (windowFlat (fun _ _ _ => (1 : ℝ)) 4 1 0 0) i = 2 := by
    rw [show (2 ^ 2 - 1 : ℕ) = 3 from rfl, Finset.sum_range_succ,
      Finset.sum_range_succ, Finset.sum_range_one, ht0, ht1, ht2]
    norm_num
  have h4 : Real.sqrt ((2 ^ 2 : ℕ) : ℝ) = 2 := by
    rw [show ((2 ^ 2 : ℕ) : ℝ) = (2 : ℝ) ^ 2 by norm_num]
    exact Real.sqrt_sq (by norm_num)
  have h3pos : 0 < Real.sqrt 3 := Real.sqrt_pos.mpr (by norm_num)
  have h3sq : Real.sqrt 3 ^ 2 = 3 := Real.sq_sqrt (by norm_num)
  have hc : ((2 ^ 2 : ℕ) : ℝ) - 1 = 3 := by norm_num
  unfold get_reshaped_x simplexProject
  rw [if_neg (by norm_num : ¬ (0 : ℕ) = 2 ^ 2 - 1), hsum, ht0, h4, hc]
  intro heq
  have heq2 : (2 : ℝ) / Real.sqrt 3 * ((1 + 2) / 3) = 2 * ((1 + 2) / 3) := by
    linarith [heq]
  have h31 : Real.sqrt 3 = 1 := by
    field_simp at heq2
  rw [h31] at h3sq
  norm_num at h3sq

/-- **C5**: padding invariance.  If a second input agrees with the first on
every sequence position of sample `k` below `seqLen k` (so in particular
when only values strictly beyond the sample's length change), then feature
row `k` of the sine-cosine variant and of the max-pool variant are
identical: only the first `cutpoint = seqLen k - kw + 1` window positions
of sample `k` ever contribute. -/
theorem C5_padding_invariance (p : ℕ) (x x' : ℕ → ℕ → ℕ → ℝ) (kw D : ℕ)
    (radem : ℕ → ℕ → ℝ) (s_mat : ℕ → ℝ) (num_freqs : ℕ) (sigma : ℝ)
    (num_rffs : ℕ) (seqLen : ℕ → ℕ) (norm : NormMode) (k : ℕ)
    (hD : 0 < D) (hkw : kw ≤ seqLen k)
    (hagree : ∀ pos d : ℕ, pos < seqLen k → x k pos d = x' k pos d) :
    (∀ col, get_features x kw D p radem s_mat num_freqs sigma seqLen norm k col
        = get_features x' kw D p radem s_mat num_freqs sigma seqLen norm k col)
    ∧ (∀ col, get_features_maxpool x kw D p radem s_mat num_rffs seqLen k col
        = get_features_maxpool x' kw D p radem s_mat num_rffs seqLen k col) := by
  have hrow : ∀ rep b j, b < seqLen k - kw + 1 →
      get_reshaped_x p x D kw radem rep k b j
        = get_reshaped_x p x' D kw radem rep k b j :=
    fun rep b j hb =>
      get_reshaped_x_agree p x x' D kw radem rep k (seqLen k) hD hkw hagree b hb j
  constructor
  · intro col
    unfold get_features
    by_cases h : col < 2 * num_freqs
    · have hcos :
          (∑ b ∈ Finset.range (seqLen k - kw + 1),
            Real.cos (get_reshaped_x p x D kw radem (col / 2 / 2 ^ p) k b (col / 2 % 2 ^ p)
              * s_mat (col / 2) * sigma))
          = ∑ b ∈ Finset.range (seqLen k - kw + 1),
            Real.cos (get_reshaped_x p x' D kw radem (col / 2 / 2 ^ p) k b (col / 2 % 2 ^ p)
              * s_mat (col / 2) * sigma) :=
        Finset.sum_congr rfl fun b hb => by
          rw [hrow _ b _ (Finset.mem_range.mp hb)]
      have hsin :
          (∑ b ∈ Finset.range (seqLen k - kw + 1),
            Real.sin (get_reshaped_x p x D kw radem (col / 2 / 2 ^ p) k b (col / 2 % 2 ^ p)
              * s_mat (col / 2) * sigma))
          = ∑ b ∈ Finset.range (seqLen k - kw + 1),
            Real.sin (get_reshaped_x p x' D kw radem (col / 2 / 2 ^ p) k b (col / 2 % 2 ^ p)
              * s_mat (col / 2) * sigma) :=
        Finset.sum_congr rfl fun b hb => by
          rw [hrow _ b _ (Finset.mem_range.mp hb)]
      rw [if_pos h, if_pos h, hcos, hsin]
    · rw [if_neg h, if_neg h]
  · intro col
    unfold get_features_maxpool
    by_cases h : col < num_rffs
    · rw [if_pos h, if_pos h]
      exact clippedMax_congr _ _ _ fun b hb => by rw [hrow _ b _ hb]
    · rw [if_neg h, if_neg h]

/-- Witness for C5: `D = 1`, `kw = 1`, sample `0` of length `2`; the two
inputs agree below position `2` and differ from position `2` on. -/
theorem C5_witness :
    (0 : ℕ) < 1
    ∧ (1 : ℕ) ≤ (fun _ : ℕ => 2) 0
    ∧ (∀ pos d : ℕ, pos < (fun _ : ℕ => 2) 0 →
        (fun _ pos _ : ℕ => if pos < 2 then (1 : ℝ) else 5) 0 pos d
          = (fun _ pos _ : ℕ => if pos < 2 then (1 : ℝ) else 7) 0 pos d)
    ∧ ((∀ col, get_features (fun _ pos _ => if pos < 2 then (1 : ℝ) else 5) 1 1 0
          (fun _ _ => 1) (fun _ => 1) 4 1 (fun _ => 2) NormMode.nrmNone 0 col
        = get_features (fun _ pos _ => if pos < 2 then (1 : ℝ) else 7) 1 1 0
          (fun _ _ => 1) (fun _ => 1) 4 1 (fun _ => 2) NormMode.nrmNone 0 col)
      ∧ (∀ col, get_features_maxpool (fun _ pos _ => if pos < 2 then (1 : ℝ) else 5) 1 1 0
          (fun _ _ => 1) (fun _ => 1) 4 (fun _ => 2) 0 col
        = get_features_maxpool (fun _ pos _ => if pos < 2 then (1 : ℝ) else 7) 1 1 0
          (fun _ _ => 1) (fun _ => 1) 4 (fun _ => 2) 0 col)) := by
  refine ⟨by norm_num, by norm_num, fun pos d hp => by simp [hp], ?_⟩
  exact C5_padding_invariance 0 _ _ 1 1 (fun _ _ => 1) (fun _ => 1) 4 1 4
    (fun _ => 2) NormMode.nrmNone 0 (by norm_num) (by norm_num)
    (fun pos d hp => by simp [hp])

/-- **C6**: normalization consistency of the sine-cosine variant — with all
other inputs held equal, the `full` features equal the `none` features
divided by the sample's cutpoint, and the `sqrt` features equal the `none`
features divided by the square root of the cutpoint. -/
theorem C6_normalization_consistency (p : ℕ) (x : ℕ → ℕ → ℕ → ℝ) (kw D : ℕ)
    (radem : ℕ → ℕ → ℝ) (s_mat : ℕ → ℝ) (num_freqs : ℕ) (sigma : ℝ)
    (seqLen : ℕ → ℕ) (k col : ℕ) :
    get_features x kw D p radem s_mat num_freqs sigma seqLen NormMode.nrmFull k col
      = get_features x kw D p radem s_mat num_freqs sigma seqLen NormMode.nrmNone k col
        / ((seqLen k - kw + 1 : ℕ) : ℝ)
    ∧ get_features x kw D p radem s_mat num_freqs sigma seqLen NormMode.nrmSqrt k col
      = get_features x kw D p radem s_mat num_freqs sigma seqLen NormMode.nrmNone k col
        / Real.sqrt ((seqLen k - kw + 1 : ℕ) : ℝ) := by
  constructor
  · by_cases h : col < 2 * num_freqs
    · by_cases h2 : col % 2 = 0 <;> simp [get_features, normScale, h, h2] <;> ring
    · simp [get_features, h]
  · by_cases h : col < 2 * num_freqs
    · by_cases h2 : col % 2 = 0 <;> simp [get_features, normScale, h, h2] <;> ring
    · simp [get_features, h]

/-- **C7**: every entry of the max-pool feature matrix is nonnegative; the
returned matrix consists of exactly the first `num_rffs` padded columns
(columns at or beyond `num_rffs` are truncated away); and each kept entry
is `max 0` of the maximum, over the sample's valid window positions, of
the weighted transform output. -/
theorem C7_maxpool_properties (x : ℕ → ℕ → ℕ → ℝ) (kw D p : ℕ)
    (radem : ℕ → ℕ → ℝ) (s_mat : ℕ → ℝ) (num_rffs : ℕ) (seqLen : ℕ → ℕ)
    (k col : ℕ) :
    0 ≤ get_features_maxpool x kw D p radem s_mat num_rffs seqLen k col
    ∧ (num_rffs ≤ col →
        get_features_maxpool x kw D p radem s_mat num_rffs seqLen k col = 0)
    ∧ (col < num_rffs →
        get_features_maxpool x kw D p radem s_mat num_rffs seqLen k col
          = max 0 ((Finset.range (seqLen k - kw + 1)).sup' Finset.nonempty_range_succ
              (fun b => s_mat col
                * get_reshaped_x p x D kw radem (col / 2 ^ p) k b (col % 2 ^ p)))) := by
  refine ⟨?_, ?_, ?_⟩
  · unfold get_features_maxpool
    by_cases h : col < num_rffs
    · rw [if_pos h]
      exact clippedMax_nonneg _ _
    · rw [if_neg h]
  · intro h
    unfold get_features_maxpool
    rw [if_neg (by omega)]
  · intro h
    unfold get_features_maxpool
    rw [if_pos h]
    exact clippedMax_eq_sup _ _

/-- Witness for C7 at a concrete instance (`num_rffs = 1`, column `0`,
cutpoint `1`). -/
theorem C7_witness :
    (0 : ℕ) < 1
    ∧ get_features_maxpool (fun _ _ _ => (0 : ℝ)) 1 1 0 (fun _ _ => 0) (fun _ => 0) 1
        (fun _ => 1) 0 0
      = max 0 ((Finset.range ((fun _ : ℕ => 1) 0 - 1 + 1)).sup' Finset.nonempty_range_succ
          (fun b => (fun _ : ℕ => (0 : ℝ)) 0
            * get_reshaped_x 0 (fun _ _ _ => (0 : ℝ)) 1 1 (fun _ _ => 0) (0 / 2 ^ 0) 0 b
                (0 % 2 ^ 0))) :=
  ⟨by norm_num,
    (C7_maxpool_properties (fun _ _ _ => 0) 1 1 0 (fun _ _ => 0) (fun _ => 0) 1
        (fun _ => 1) 0 0).2.2 (by norm_num)⟩

/-! ### Claims C8, C10 -/

/-- **C8**: for every graph-kernel call to `transform_x` or
`kernel_specific_gradient`, if the sequence lengths are missing (`None`) or
the input array does not have rank 3, the call raises the validation error
before any numeric work: no buffer is allocated and no transform invoked
(the step trace is empty), and no value is silently produced. -/
theorem C8_validation {α : Type} (sequence_length : Option (List ℕ))
    (input_shape : List ℕ) (graph_average : Bool) (conv_func grad_func : Bool → α)
    (h : sequence_length = none ∨ input_shape.length ≠ 3) :
    transform_x sequence_length input_shape graph_average conv_func
      = ⟨[], Except.error KernelError.validationError⟩
    ∧ kernel_specific_gradient sequence_length input_shape graph_average grad_func
      = ⟨[], Except.error KernelError.validationError⟩ := by
  rcases h with h | h
  · subst h
    exact ⟨rfl, rfl⟩
  · cases sequence_length with
    | none => exact ⟨rfl, rfl⟩
    | some s =>
      constructor
      · unfold transform_x
        rw [if_neg (by simp), if_pos h]
      · unfold kernel_specific_gradient
        rw [if_neg (by simp), if_pos h]

/-- Witness for C8: missing sequence lengths with a rank-3 shape. -/
theorem C8_witness :
    ((none : Option (List ℕ)) = none ∨ ([2, 3, 4] : List ℕ).length ≠ 3)
    ∧ (transform_x (α := Bool) none [2, 3, 4] false (fun b => b)
        = ⟨[], Except.error KernelError.validationError⟩
      ∧ kernel_specific_gradient (α := Bool) none [2, 3, 4] false (fun b => b)
        = ⟨[], Except.error KernelError.validationError⟩) :=
  ⟨Or.inl rfl,
    C8_validation none [2, 3, 4] false (fun b => b) (fun b => b) (Or.inl rfl)⟩

/-- **C10**: `graph_average` defaults to `False`; it is `True` exactly when
`kernel_spec_parms` holds a truthy value under `"averaging"`; and on every
validated feature-generation and gradient call the flag is passed unchanged
into the conv / gradient function invocation. -/
theorem C10_graph_average {α : Type} (conv_func grad_func : Bool → α) :
    graph_average_init (fun _ => none) = false
    ∧ (∀ parms : String → Option PyVal,
        graph_average_init parms = true
          ↔ ∃ v, parms "averaging" = some v ∧ truthy v = true)
    ∧ (∀ (sequence_length : Option (List ℕ)) (input_shape : List ℕ) (g : Bool),
        sequence_length ≠ none → input_shape.length = 3 →
        transform_x sequence_length input_shape g conv_func
            = ⟨[FeatureStep.allocOutput, FeatureStep.allocReshaped,
                  FeatureStep.convCall g],
                Except.ok (conv_func g)⟩
          ∧ kernel_specific_gradient sequence_length input_shape g grad_func
            = ⟨[FeatureStep.allocOutput, FeatureStep.allocReshaped,
                  FeatureStep.gradCall g],
                Except.ok (grad_func g)⟩) := by
  refine ⟨rfl, ?_, ?_⟩
  · intro parms
    unfold graph_average_init
    cases hp : parms "averaging" with
    | none => simp
    | some v =>
      dsimp only
      constructor
      · intro hgt
        by_cases hv : truthy v = true
        · exact ⟨v, rfl, hv⟩
        · rw [if_neg hv] at hgt
          exact absurd hgt (by simp)
      · rintro ⟨w, hw, hwt⟩
        obtain rfl : v = w := Option.some.inj hw
        rw [if_pos hwt]
  · intro seq shape g hs hlen
    cases seq with
    | none => exact absurd rfl hs
    | some s =>
      constructor
      · unfold transform_x
        rw [if_neg (by simp), if_neg (by simp [hlen])]
      · unfold kernel_specific_gradient
        rw [if_neg (by simp), if_neg (by simp [hlen])]

/-- Witness for C10 at a concrete validated call with the flag `true`. -/
theorem C10_witness :
    (some [5] : Option (List ℕ)) ≠ none
    ∧ ([2, 3, 4] : List ℕ).length = 3
    ∧ (transform_x (some [5]) [2, 3, 4] true (fun b => b)
        = ⟨[FeatureStep.allocOutput, FeatureStep.allocReshaped,
              FeatureStep.convCall true],
            Except.ok true⟩
      ∧ kernel_specific_gradient (some [5]) [2, 3, 4] true (fun b => b)
        = ⟨[FeatureStep.allocOutput, FeatureStep.allocReshaped,
              FeatureStep.gradCall true],
            Except.ok true⟩) :=
  ⟨by simp, rfl,
    (C10_graph_average (fun b => b) (fun b => b)).2.2 (some [5]) [2, 3, 4] true
      (by simp) rfl⟩

end XGPR
